import Mathlib

/-!
Verification development for the chemical-exposure analysis backend
(`analysis_core.py`, `aqueous_code.py`).

The Python code is shallowly embedded in Lean.  Python floats are modelled by
exact rationals `ℚ`; the transcendental float operations (`10 ** x`, `x ** p`,
`np.exp`) and the external numeric routine `scipy.optimize.newton` are passed
in as explicit function parameters (a `FloatOps` bundle), so every definition
stays executable.  A compound record (a Python dict) is modelled by a structure
of optional fields: `none` is an absent key, `some v` a present numeric value.
Division on `ℚ` is total (`x / 0 = 0`); all claims proved below only ever
divide by nonzero quantities.  The closed-form series of `aqueous_code.py`
(claim about monotonicity of the exact dose curve) is additionally embedded
over `ℝ` with genuine `Real.exp`, since that claim is about the real series.
-/

/-- Outcome of `scipy.optimize.newton(func, x0)` as observed by the caller:
either it returns a float, or it raises `RuntimeError`/`OverflowError`
(non-convergence or overflow), which is what the caller catches. -/
inductive NewtonResult
  | ret (x : ℚ)
  | fails
  deriving DecidableEq

/-- Bundle of the floating-point primitives used by `analysis_core.py`,
passed explicitly so the embedding is a pure function of them:
`pow10 x` is `10 ** x`, `rpow x p` is `x ** p`, `exp` is `np.exp`,
`pi` is `np.pi`, `eps` is `np.finfo(float).eps`, and `newton` is
`scipy.optimize.newton`. -/
structure FloatOps where
  pow10 : ℚ → ℚ
  rpow : ℚ → ℚ → ℚ
  exp : ℚ → ℚ
  pi : ℚ
  eps : ℚ
  newton : (ℚ → ℚ) → ℚ → NewtonResult

/-- A compound record (one row of the database, as a Python dict).
Numeric fields are `Option ℚ` (`none` = key absent).  The structural data is
modelled by the substructure-match oracle the parsed molecule provides:
`mol = some m` means `safe_mol_from_smiles` returned a molecule, and
`m pat` is `mol.HasSubstructMatch(Chem.MolFromSmarts(pat))`; `mol = none`
means no SMILES or parsing failed.  `aeglEntries` holds the dict keys
matching `AEGL{level}_{time}` in dict (insertion) order, each with its value
(`none` = NaN / non-numeric). -/
structure Compound where
  Name : Option String := none
  CAS : Option String := none
  MW : Option ℚ := none
  logP : Option ℚ := none
  logKow : Option ℚ := none
  henryConstant : Option ℚ := none
  vaporPressure : Option ℚ := none
  solubility : Option ℚ := none
  chemClass : Option String := none
  mol : Option (String → Bool) := none
  aeglEntries : List ((ℕ × String) × Option ℚ) := []

/-- The `class_reactivity_factors` table together with the `.get(cls, 0.001)`
default used in `analyze_reactivity`. -/
def class_reactivity_factors (cls : String) : ℚ :=
  if cls = "Nerve agent" then 1
  else if cls = "Blister agent" then 4/10
  else if cls = "Nitroaromatic" then 5/100
  else if cls = "Aromatic hydrocarbon" then 1/1000
  else if cls = "Alcohol" then 1/1000
  else if cls = "Ketone" then 2/1000
  else if cls = "Other" then 1/1000
  else 1/1000

/-- The fixed ordered pattern table of `analyze_reactivity` (label, SMARTS). -/
def reactivityPatterns : List (String × String) :=
  [("Alkene", "[C;!R]=[C;!R]"),
   ("Carbonyl", "C=O"),
   ("Nitro", "[N+](=O)[O-]"),
   ("Thiol", "[SH]"),
   ("Amine", "[NX3;H2,H1;!$(NC=O)]"),
   ("Phenol", "c1ccc(cc1)O"),
   ("Phosphate ester", "P(=O)(O)(O)"),
   ("Organophosphorus", "P(=O)(O)(C)")]

/-- Result record of `analyze_reactivity`. -/
structure ReactivityProfile where
  reactiveGroups : List String
  leavingGroup : String
  steric : String
  reactiveScore : ℚ
  chemicalClass : String
  oximeReactivity : String
  deriving DecidableEq

/-- The steric bucket `"Low" if MW <= 150 else "Medium" if MW <= 300 else
"High"` computed inline in `analyze_reactivity`. -/
def stericBucket (MW : ℚ) : String :=
  if MW ≤ 150 then "Low" else if MW ≤ 300 then "Medium" else "High"

/-- Embedding of `analyze_reactivity` (analysis_core.py).  The molecule is the
optional substructure oracle; `compound.get("class", "Other")` and
`float(compound.get("MW", 0))` are the two defaulted reads.  The
leaving-group cascade is the literal if/elif chain of the source. -/
def analyze_reactivity (c : Compound) : ReactivityProfile :=
  let cls := c.chemClass.getD "Other"
  let MW := c.MW.getD 0
  let reactive_score := class_reactivity_factors cls
  match c.mol with
  | some m =>
    let reactive_groups := (reactivityPatterns.filter (fun p => m p.2)).map Prod.fst
    let oxime :=
      if reactive_groups.contains "Organophosphorus" then "High"
      else if reactive_groups.contains "Carbonyl" || reactive_groups.contains "Nitro" then
        "Moderate"
      else "Negligible"
    let leaving :=
      if m "[F-]" || m "F" then "F"
      else if m "Cl" then "Cl"
      else if m "Br" then "Br"
      else if m "C#N" then "CN"
      else if m "[S]" then "S"
      else "Other"
    { reactiveGroups := reactive_groups
      leavingGroup := leaving
      steric := stericBucket MW
      reactiveScore := reactive_score
      chemicalClass := cls
      oximeReactivity := oxime }
  | none =>
    { reactiveGroups := []
      leavingGroup := "Other"
      steric := stericBucket MW
      reactiveScore := reactive_score
      chemicalClass := cls
      oximeReactivity := "Negligible" }

/-- Result record of `predict_kr`. -/
structure KrPrediction where
  compound : String
  predicted_kr : ℚ
  confidence : String
  deriving DecidableEq

/-- Embedding of `float(compound.get("logP") or 0.3)`: a missing key gives
`None` (falsy) and a present value `0`/`0.0` is falsy too, so both are
replaced by `0.3`. -/
def logPOrDefault (c : Compound) : ℚ :=
  match c.logP with
  | none => 3/10
  | some v => if v = 0 then 3/10 else v

/-- Embedding of `predict_kr` (analysis_core.py).  `O.exp` stands for
`math.exp`.  Note the two different class reads of the source: the reactivity
profile uses `compound.get("class", "Other")` while the cap condition uses raw
`compound.get("class")` (absent class therefore falls under the cap). -/
def predict_kr (O : FloatOps) (c : Compound) : KrPrediction :=
  let reactivity := analyze_reactivity c
  let MW := c.MW.getD 100
  let logP := logPOrDefault c
  let baseKr :=
    if reactivity.leavingGroup = "Cl" then 1/10
    else if reactivity.leavingGroup = "Br" then 2/10
    else if reactivity.leavingGroup = "F" then 5/100
    else if reactivity.leavingGroup = "CN" then 1/100
    else if reactivity.leavingGroup = "S" then 5/1000
    else 1/1000 * reactivity.reactiveScore
  let logP_penalty := O.exp (-1 * |logP - 3/10|)
  let mw_penalty := O.exp (-(2/1000) * |MW - 140|)
  let steric_adj :=
    if reactivity.steric = "Low" then 1
    else if reactivity.steric = "Medium" then 7/10
    else if reactivity.steric = "High" then 4/10
    else 1
  let finalKr := baseKr * logP_penalty * mw_penalty * steric_adj
  let finalKr :=
    if c.chemClass ≠ some "Nerve agent" ∧ c.chemClass ≠ some "Blister agent" then
      min finalKr (5/1000)
    else finalKr
  { compound := c.Name.getD "Unknown"
    predicted_kr := max (min finalKr 10) (1/100000)
    confidence := if c.chemClass = some "Nerve agent" then "High" else "Low" }

/-- Embedding of `fluxVaporSteady` (aqueous_code.py): the steady-state flux
step function `base if tt > tLag else 0.0` with
`base = a1*kscg*hsc*cv*(dsc/(hsc*hsc))`. -/
def fluxVaporSteady (tt tLag dsc hsc cv a1 kscg : ℚ) : ℚ :=
  let base := a1 * kscg * hsc * cv * (dsc / (hsc * hsc))
  if tLag < tt then base else 0

/-- Which root-finding call `findTimeToDose` (aqueous_code.py) ends up making:
a bracketed `brentq` solve on `(lo, hi)`, or the open `newton` solve seeded at
the original `x0`. -/
inductive RootMethod
  | bracketed (lo hi : ℚ)
  | openNewton (x0 : ℚ)
  deriving DecidableEq

/-- The bracket-expansion loop of `findTimeToDose`:
`while fLo * fHi > 0.0 and tries < 40: hi *= 1.5; fHi = f(hi); tries += 1`,
with the remaining `tries` budget as fuel. -/
def expandHi (f : ℚ → ℚ) (fLo : ℚ) : ℕ → ℚ → ℚ
  | 0, hi => hi
  | b + 1, hi => if 0 < fLo * f hi then expandHi f fLo b (hi * (3/2)) else hi

/-- Method-selection semantics of `findTimeToDose` (aqueous_code.py, lines
145-162): `lo = 0.0`, `hi = max(1.0, x0)`, expand `hi` by `1.5` at most 40
times while `f(lo) * f(hi) > 0`; if after the loop `f(lo) * f(hi) <= 0`
solve with the bracketed `brentq` on `(lo, hi)`, otherwise fall back to the
open `newton` solve seeded at the original `x0`.  `f` is the residual
`Q(t) - targetDose`. -/
def findTimeToDoseMethod (f : ℚ → ℚ) (x0 : ℚ) : RootMethod :=
  let lo : ℚ := 0
  let hi := expandHi f (f lo) 40 (max 1 x0)
  if f lo * f hi ≤ 0 then .bracketed lo hi else .openNewton x0

/-- Python errors the embedded `analysis_core` pipeline can raise:
`KeyError(field)` from a direct `compound[field]` access on an absent key,
and `TypeError` from using `None` in arithmetic (`10 ** None`). -/
inductive PyError
  | keyError (field : String)
  | typeError
  deriving DecidableEq

/-- The `tReach` field of a kinetics result: the numeric root, or the literal
failure marker string `"FindRootFailed"`. -/
inductive TReach
  | num (t : ℚ)
  | findRootFailed
  deriving DecidableEq

/-- The numeric fields of the result dict built by `analyzeSingleAegl`
(the two Plotly graph JSON fields are out of scope). -/
structure KineticsRecord where
  compound : String
  cas : String
  mw : ℚ
  logKow : ℚ
  aegl : ℚ
  aeglLevel : ℕ
  timeStr : String
  exposureTimeHours : ℚ
  pscw : ℚ
  dsc : ℚ
  tlag : ℚ
  kscw : ℚ
  kscg : ℚ
  cv : ℚ
  qallow : ℚ
  tReach : TReach
  steadyStateFlux : ℚ
  deriving DecidableEq

/-- `analyzeSingleAegl` returns either the literal string `"NotAvailable"` or
a result dict. -/
inductive SingleOutcome
  | notAvailable
  | result (r : KineticsRecord)
  deriving DecidableEq

/-- Value classification done by `getAeglValue`. -/
inductive AeglValue
  | notAvailable
  | val (q : ℚ)
  deriving DecidableEq

/-- Dict lookup of the key `AEGL{level}_{timeStr}`: `none` if the key is
absent, `some v` with the stored value otherwise. -/
def lookupAeglKey (c : Compound) (level : ℕ) (timeStr : String) : Option (Option ℚ) :=
  (c.aeglEntries.find? (fun e => decide (e.1 = (level, timeStr)))).map Prod.snd

/-- Embedding of `getAeglValue` (analysis_core.py): the key must be present
and its value a number `> 0`, otherwise the string `"NotAvailable"` is
returned (a NaN value compares `> 0` as false, hence is also rejected). -/
def getAeglValue (c : Compound) (level : ℕ) (timeStr : String) : AeglValue :=
  match lookupAeglKey c level timeStr with
  | none => .notAvailable
  | some none => .notAvailable
  | some (some v) => if 0 < v then .val v else .notAvailable

/-- Keep-first deduplication, as done by `OrderedDict.fromkeys`. -/
def dedupFirst : List String → List String → List String
  | _, [] => []
  | seen, x :: xs =>
    if x ∈ seen then dedupFirst seen xs else x :: dedupFirst (x :: seen) xs

/-- Embedding of `getAvailableAeglTimes` (analysis_core.py): the time suffix
of every dict key matching `AEGL\d+_(.+)`, in dict order, first occurrence
kept. -/
def getAvailableAeglTimes (c : Compound) : List String :=
  dedupFirst [] (c.aeglEntries.map (fun e => e.1.2))

/-- Embedding of `timeStringToHours` (analysis_core.py), including the
`.get(timeStr, 8)` default. -/
def timeStringToHours (timeStr : String) : ℚ :=
  if timeStr = "8hr" then 8
  else if timeStr = "4hr" then 4
  else if timeStr = "60min" then 1
  else if timeStr = "30min" then 1/2
  else if timeStr = "10min" then 1/6
  else 8

/-- The truncated-series summation loop inside `q2` (analysis_core.py),
including the machine-epsilon skip: a term is accumulated only when
`abs(term) > machineEps`. -/
def q2Summation (O : FloatOps) (dif h : ℚ) (nup : ℕ) (t : ℚ) : ℚ :=
  (List.range' 1 nup).foldl
    (fun (acc : ℚ) (n : ℕ) =>
      let term := (-1 : ℚ) ^ n * O.exp (-(n ^ 2 : ℚ) * O.pi ^ 2 * t * dif / h ^ 2) / (n ^ 2 : ℚ)
      if O.eps < |term| then acc + term else acc)
    0

/-- Embedding of the local function `q2` of `analyzeSingleAegl`
(analysis_core.py); `a1`, `kscg`, `cv` are captured from the enclosing
scope in the source and are explicit arguments here. -/
def q2 (O : FloatOps) (a1 kscg cv : ℚ) (dif h : ℚ) (nup : ℕ) (t : ℚ) : ℚ :=
  a1 * kscg * h * cv * (t * dif / h ^ 2 - 1/6 - 2 / O.pi ^ 2 * q2Summation O dif h nup t)

/-- Read `compound[field]`: value if present, `KeyError(field)` otherwise. -/
def getItem (field : String) (v : Option ℚ) : Except PyError ℚ :=
  match v with
  | some x => pure x
  | none => throw (.keyError field)

/-- The residual passed to `newton` in `analyzeSingleAegl`:
`lambda t: q2(t, dsc, hsc, cv, nup) - qallow`. -/
def newtonResidual (O : FloatOps) (a1 kscg cv dsc hsc : ℚ) (nup : ℕ) (qallow : ℚ) : ℚ → ℚ :=
  fun t => q2 O a1 kscg cv dsc hsc nup t - qallow

/-- The `tReach` computation of `analyzeSingleAegl`: `newton` is attempted at
seed `100.0`; a returned value is kept only if it is a positive number, and a
raised `RuntimeError`/`OverflowError` is caught; both failure paths produce
the `"FindRootFailed"` marker. -/
def tReachOf (O : FloatOps) (a1 kscg cv dsc hsc : ℚ) (nup : ℕ) (qallow : ℚ) : TReach :=
  match O.newton (newtonResidual O a1 kscg cv dsc hsc nup qallow) 100 with
  | .ret r => if 0 < r then .num r else .findRootFailed
  | .fails => .findRootFailed

/-- Embedding of `analyzeSingleAegl` (analysis_core.py).  The order of the
field reads follows the source: the early return on an unavailable AEGL
value, then `compound["MW"]` (KeyError), the `logKow`/`logP` fallback chain
(no error yet), then `compound["henryConstant"]`, `compound["vaporPressure"]`,
`compound["solubility"]` (KeyErrors), and only at `kow = 10 ** logKow` does a
still-missing `logKow` raise a `TypeError`.  `compound["Name"]` and
`compound["CAS"]` are read when the result dict is built.  Graph generation is
out of scope. -/
def analyzeSingleAegl (O : FloatOps) (c : Compound) (aeglLevel : ℕ) (timeStr : String) :
    Except PyError SingleOutcome :=
  match getAeglValue c aeglLevel timeStr with
  | .notAvailable => .ok .notAvailable
  | .val aegl =>
    match c.MW with
    | none => .error (.keyError "MW")
    | some molecularWeight =>
      let logKowOpt : Option ℚ :=
        match c.logKow with
        | some v => some v
        | none => c.logP
      match c.henryConstant with
      | none => .error (.keyError "henryConstant")
      | some henryConstant =>
        match c.vaporPressure with
        | none => .error (.keyError "vaporPressure")
        | some _vaporPressure =>
          match c.solubility with
          | none => .error (.keyError "solubility")
          | some solubility =>
            let _waterSolubility := solubility / 1000
            let bodyWeight : ℚ := 70
            let hsc : ℚ := 10 * (1/10000)
            let h1 := hsc
            let gasConstant : ℚ := 821/10000
            let temperature : ℚ := 29815/100
            let nup : ℕ := 10
            let a1 : ℚ := 1/10 * 18150
            let ttox := timeStringToHours timeStr
            match logKowOpt with
            | none => .error .typeError
            | some logKow =>
              let kow := O.pow10 logKow
              let kscw :=
                4/100 * O.rpow kow (81/100) + 406/100 * O.rpow kow (27/100) + 359/1000
              let cv := 1/1000000 * aegl
              let logPscw := -(28/10) + 66/100 * logKow - 56/10000 * molecularWeight
              let pscw := O.pow10 logPscw
              let dsc := pscw * h1 / kscw
              let hcp := 1 / henryConstant / 1000
              let kwg := hcp * gasConstant * temperature
              let kscg := kscw * kwg
              let breath := 21/10 * O.rpow (1000 * bodyWeight) (3/4) * (1/1000000) * 1440
              let qallow := aegl * breath * (ttox / 24)
              let tlag := h1 ^ 2 / (6 * dsc)
              let steadyStateFlux := a1 * kscg * hsc * cv * dsc / hsc ^ 2
              let tReach := tReachOf O a1 kscg cv dsc hsc nup qallow
              match c.Name with
              | none => .error (.keyError "Name")
              | some name =>
                match c.CAS with
                | none => .error (.keyError "CAS")
                | some cas =>
                  .ok (.result
                    { compound := name
                      cas := cas
                      mw := molecularWeight
                      logKow := logKow
                      aegl := aegl
                      aeglLevel := aeglLevel
                      timeStr := timeStr
                      exposureTimeHours := ttox
                      pscw := pscw
                      dsc := dsc
                      tlag := tlag
                      kscw := kscw
                      kscg := kscg
                      cv := cv
                      qallow := qallow
                      tReach := tReach
                      steadyStateFlux := steadyStateFlux })

/-- The computation of `timesToAnalyze` in `analyzeAllAegls`
(analysis_core.py).  `selectedTimes = None` keeps the available times, a
non-empty list is kept as is (the nested-list flattening is a no-op for the
already-flat lists modelled here), anything else gives `[]`; then
`timesToAnalyze = list(set(timesToAnalyze) & set(availableTimes))` is applied
unconditionally.  CPython enumerates a set of strings in a hash-dependent
order that is randomized per interpreter run (`PYTHONHASHSEED`), so the
enumeration `list(set(a) & set(b))` is passed in as the explicit parameter
`setInter`. -/
def timesToAnalyze (setInter : List String → List String → List String)
    (c : Compound) (selectedTimes : Option (List String)) : List String :=
  let availableTimes := getAvailableAeglTimes c
  let pre :=
    match selectedTimes with
    | none => availableTimes
    | some l => if l.isEmpty then [] else l
  setInter pre availableTimes

/-- The iteration order of the two nested loops of `analyzeAllAegls`:
`for level in range(1, 4): for timeStr in timesToAnalyze:`. -/
def aeglCombos (setInter : List String → List String → List String)
    (c : Compound) (selectedTimes : Option (List String)) : List (ℕ × String) :=
  ([1, 2, 3] : List ℕ).flatMap
    (fun level => (timesToAnalyze setInter c selectedTimes).map (fun t => (level, t)))

/-- The accumulator loop of `analyzeAllAegls`: for each (tier, duration)
combination in order, call `analyzeSingleAegl`; a `"NotAvailable"` outcome is
skipped, a result dict is appended (`allResults.append(result)`), and an
uncaught Python exception aborts the whole loop (the `.error` case). -/
def runCombos (O : FloatOps) (c : Compound) :
    List (ℕ × String) → List KineticsRecord → Except PyError (List KineticsRecord)
  | [], acc => .ok acc
  | p :: ps, acc =>
    match analyzeSingleAegl O c p.1 p.2 with
    | .error e => .error e
    | .ok .notAvailable => runCombos O c ps acc
    | .ok (.result r) => runCombos O c ps (acc ++ [r])

/-- Embedding of `analyzeAllAegls` (analysis_core.py): iterate the tier ×
duration combos in loop order, accumulating results from `[]`. -/
def analyzeAllAegls (O : FloatOps) (setInter : List String → List String → List String)
    (c : Compound) (selectedTimes : Option (List String)) :
    Except PyError (List KineticsRecord) :=
  runCombos O c (aeglCombos setInter c selectedTimes) []

/-- The per-combination contribution of `analyzeAllAegls`: the appended result
dict, if any. -/
def singleResultOpt (O : FloatOps) (c : Compound) (p : ℕ × String) :
    Option KineticsRecord :=
  match analyzeSingleAegl O c p.1 p.2 with
  | .ok (.result r) => some r
  | _ => none

/-- The (tier, duration) sequence of a result collection, i.e. the order in
which the runner produced its results. -/
def resultKeys (rs : List KineticsRecord) : List (ℕ × String) :=
  rs.map (fun r => (r.aeglLevel, r.timeStr))

/-- The params dict returned by `initParamsFromRow` (aqueous_code.py). -/
structure AqParams where
  name : Option String
  cas : Option String
  mw : ℚ
  bw : ℚ
  logKow : ℚ
  kow : ℚ
  kscw : ℚ
  concComptox : ℚ
  csPpm : ℚ
  cv : ℚ
  hsc : ℚ
  h1 : ℚ
  logPscw : ℚ
  pscw : ℚ
  dsc : ℚ
  r : ℚ
  t : ℚ
  kwg : ℚ
  kscg : ℚ
  nUp : ℕ
  bodySurfaceAreaCm2 : ℚ
  a1 : ℚ
  deriving DecidableEq

/-- Embedding of `initParamsFromRow` (aqueous_code.py).  `float(row["MW"])`
and `float(row["logP"])` raise `KeyError` on absent keys.  Henry's constant is
read with `row.get`: only a present, non-NaN, strictly positive value takes
the `(1/H)/1000` branch, everything else falls back to the documented constant
`hcp = 1.0/1000.0` (an absent key is modelled by `none`; a NaN value, which
fails both `pd.notna` and `> 0`, lands in the same fallback as a non-positive
value). -/
def initParamsFromRow (pow10 : ℚ → ℚ) (rpowQ : ℚ → ℚ → ℚ) (row : Compound)
    (aeglMgPerM3 : ℚ) (bodyWeightKg : ℚ) (exposedFraction : ℚ) :
    Except PyError AqParams := do
  let mw ← getItem "MW" row.MW
  let logKow ← getItem "logP" row.logP
  let kow := pow10 logKow
  let kscw := 4/100 * rpowQ kow (81/100) + 406/100 * rpowQ kow (27/100) + 359/1000
  let concComptox := aeglMgPerM3
  let csPpm := concComptox * (2445/100) / mw
  let cv := 1/1000000 * concComptox
  let hsc : ℚ := 10 * (1/10000)
  let h1 := hsc
  let logPscw := -(28/10) + 66/100 * logKow - 56/10000 * mw
  let pscw := pow10 logPscw
  let dsc := pscw * h1 / kscw
  let r : ℚ := 821/10000
  let t : ℚ := 29815/100
  let hcp : ℚ :=
    match row.henryConstant with
    | some H => if 0 < H then 1 / H / 1000 else 1/1000
    | none => 1/1000
  let kwg := hcp * r * t
  let kscg := kscw * kwg
  let bodySurfaceAreaCm2 : ℚ := 18150
  let a1 := exposedFraction * bodySurfaceAreaCm2
  return {
      name := row.Name
      cas := row.CAS
      mw := mw
      bw := bodyWeightKg
      logKow := logKow
      kow := kow
      kscw := kscw
      concComptox := concComptox
      csPpm := csPpm
      cv := cv
      hsc := hsc
      h1 := h1
      logPscw := logPscw
      pscw := pscw
      dsc := dsc
      r := r
      t := t
      kwg := kwg
      kscg := kscg
      nUp := 10
      bodySurfaceAreaCm2 := bodySurfaceAreaCm2
      a1 := a1 }

/-- The steady-state vapor flux computed by `_run_single_from_row`
(aqueous_code.py): `p["a1"] * p["kscg"] * p["hsc"] * p["cv"] * p["dsc"] /
(p["hsc"] ** 2)`. -/
def vaporSteadyFluxOf (p : AqParams) : ℚ :=
  p.a1 * p.kscg * p.hsc * p.cv * p.dsc / p.hsc ^ 2

/-- Embedding of `seriesSumExact` (aqueous_code.py) over the reals, with the
genuine exponential: `s += ((-1.0) ** n) * math.exp(-(n * n) * pi2 * tt * dif
/ (h * h)) / (n * n)` for `n` in `range(1, nUp + 1)`. -/
noncomputable def seriesSumExact (tt dif h : ℝ) (nUp : ℕ) : ℝ :=
  ∑ n in Finset.Icc 1 nUp,
    (-1 : ℝ) ^ n * Real.exp (-((n : ℝ) * n) * Real.pi ^ 2 * tt * dif / (h * h)) / ((n : ℝ) * n)

/-- Embedding of `q2VaporExact` (aqueous_code.py) over the reals: the exact
truncated dose series `Q(t)`. -/
noncomputable def q2VaporExact (tt dif h cv a1 kscg : ℝ) (nUp : ℕ) : ℝ :=
  a1 * kscg * h * cv *
    (tt * dif / (h * h) - 1/6 - 2 / Real.pi ^ 2 * seriesSumExact tt dif h nUp)

/-- The truncated theta-like factor of the derivative of `q2VaporExact`:
`Q'(t) = a1*kscg*h*cv*(dif/h²) * gTrunc(π²*t*dif/h²)`. -/
noncomputable def gTrunc (s : ℝ) : ℝ :=
  1 + 2 * ∑ n in Finset.Icc (1 : ℕ) 10, (-1 : ℝ) ^ n * Real.exp (-((n : ℝ) * n) * s)

/-- Term of the full alternating theta series `∑_{n ∈ ℤ} (-1)^n e^{-n² s}`. -/
noncomputable def thetaTerm (s : ℝ) (n : ℤ) : ℝ :=
  (-1 : ℝ) ^ n * Real.exp (-((n : ℝ) * n) * s)

/-- Term of the dual (Poisson-transformed) series
`∑_{n ∈ ℤ} e^{-(π²/s)(n - 1/2)²}`, which is manifestly positive. -/
noncomputable def gaussTerm (s : ℝ) (n : ℤ) : ℝ :=
  Real.exp (-(Real.pi ^ 2 / s) * ((n : ℝ) - 1/2) ^ 2)

/-- Trivial floating-point bundle used for concrete evaluations in witnesses:
all transcendental operations are the constant 1, `pi = 3`, `eps = 0`, and
`newton` converges to 1. -/
def trivialOps : FloatOps :=
  { pow10 := fun _ => 1
    rpow := fun _ _ => 1
    exp := fun _ => 1
    pi := 3
    eps := 0
    newton := fun _ _ => .ret 1 }

/-- Like `trivialOps` but `newton` always raises (models a root-finding
failure). -/
def failingNewtonOps : FloatOps :=
  { trivialOps with newton := fun _ _ => .fails }

/-- A fully populated sample compound with two AEGL-1 entries, used for
concrete evaluations. -/
def sampleCompound : Compound :=
  { Name := some "Sample"
    CAS := some "1-2-3"
    MW := some 140
    logP := some 2
    logKow := some 2
    henryConstant := some (1/100)
    vaporPressure := some 1
    solubility := some 1000
    chemClass := some "Nerve agent"
    mol := none
    aeglEntries := [((1, "8hr"), some 2), ((1, "4hr"), some 3)] }

/-! ## Theorems -/

/-- C7: for every compound record and every floating-point exponential, the
predicted rate constant lies in the closed interval `[0.00001, 10.0]`, and
whenever the declared chemical class is neither `"Nerve agent"` nor
`"Blister agent"` it is additionally at most `0.005`. -/
theorem predict_kr_bounds (O : FloatOps) (c : Compound) :
    1/100000 ≤ (predict_kr O c).predicted_kr ∧
    (predict_kr O c).predicted_kr ≤ 10 ∧
    ((c.chemClass ≠ some "Nerve agent" ∧ c.chemClass ≠ some "Blister agent") →
      (predict_kr O c).predicted_kr ≤ 5/1000) := by
  refine ⟨le_max_right _ _, max_le (min_le_right _ _) (by norm_num), ?_⟩
  intro h
  show max (min _ 10) (1/100000) ≤ 5/1000
  rw [if_pos h]
  refine max_le (le_trans (min_le_left _ _) (min_le_right _ _)) (by norm_num)

/-- C7 witness: a compound of class `"Alcohol"` satisfies the cap hypothesis,
and its prediction is at most `0.005`. -/
theorem predict_kr_bounds_witness :
    (({ chemClass := some "Alcohol" } : Compound).chemClass ≠ some "Nerve agent" ∧
      ({ chemClass := some "Alcohol" } : Compound).chemClass ≠ some "Blister agent") ∧
    (predict_kr trivialOps { chemClass := some "Alcohol" }).predicted_kr ≤ 5/1000 :=
  ⟨⟨by decide, by decide⟩,
    (predict_kr_bounds trivialOps { chemClass := some "Alcohol" }).2.2 ⟨by decide, by decide⟩⟩

/-- C8: for strictly positive coefficients, the steady-state flux is an exact
step function of `t`: it returns `0` for every `t ≤ tLag` and the constant
`a1*kscg*hsc*cv*(dsc/hsc²)` for every `t > tLag`; that constant is strictly
positive (so the function jumps at `tLag`), and no value other than the two
branch values is ever produced (no smoothing or interpolation). -/
theorem fluxVaporSteady_step (tLag dsc hsc cv a1 kscg : ℚ)
    (hdsc : 0 < dsc) (hhsc : 0 < hsc) (hcv : 0 < cv) (ha1 : 0 < a1) (hkscg : 0 < kscg) :
    (∀ tt, tt ≤ tLag → fluxVaporSteady tt tLag dsc hsc cv a1 kscg = 0) ∧
    (∀ tt, tLag < tt →
      fluxVaporSteady tt tLag dsc hsc cv a1 kscg = a1 * kscg * hsc * cv * (dsc / (hsc * hsc))) ∧
    0 < a1 * kscg * hsc * cv * (dsc / (hsc * hsc)) ∧
    (∀ tt, fluxVaporSteady tt tLag dsc hsc cv a1 kscg = 0 ∨
      fluxVaporSteady tt tLag dsc hsc cv a1 kscg = a1 * kscg * hsc * cv * (dsc / (hsc * hsc))) := by
  refine ⟨?_, ?_, ?_, ?_⟩
  · intro tt h; simp [fluxVaporSteady, not_lt.mpr h]
  · intro tt h; simp [fluxVaporSteady, h]
  · positivity
  · intro tt
    unfold fluxVaporSteady
    split
    · right; rfl
    · left; rfl

/-- C8 witness: with all coefficients 1, the flux is 0 at `t = tLag = 1` and
equals the positive constant at `t = 2`. -/
theorem fluxVaporSteady_step_witness :
    (0 : ℚ) < 1 ∧ fluxVaporSteady 1 1 1 1 1 1 1 = 0 ∧
      fluxVaporSteady 2 1 1 1 1 1 1 = 1 * 1 * 1 * 1 * (1 / (1 * 1)) :=
  ⟨one_pos,
    (fluxVaporSteady_step 1 1 1 1 1 1 one_pos one_pos one_pos one_pos one_pos).1 1 le_rfl,
    (fluxVaporSteady_step 1 1 1 1 1 1 one_pos one_pos one_pos one_pos one_pos).2.1 2 one_lt_two⟩

/-- C9: leaving-group detection is a first-match-wins cascade in the fixed
order F, Cl, Br, CN, S, Other: a fluorine match (either pattern) always gives
`"F"` — in particular a molecule matching both a fluorine and a chlorine
pattern resolves to `"F"`, never `"Cl"` — each later label is produced exactly
when all earlier patterns fail and its own matches, and a compound without
structural data resolves to `"Other"`. -/
theorem leavingGroup_cascade (c : Compound) (m : String → Bool) :
    (c.mol = some m →
      ((m "[F-]" || m "F") = true → (analyze_reactivity c).leavingGroup = "F") ∧
      (m "[F-]" = false → m "F" = false → m "Cl" = true →
        (analyze_reactivity c).leavingGroup = "Cl") ∧
      (m "[F-]" = false → m "F" = false → m "Cl" = false → m "Br" = true →
        (analyze_reactivity c).leavingGroup = "Br") ∧
      (m "[F-]" = false → m "F" = false → m "Cl" = false → m "Br" = false → m "C#N" = true →
        (analyze_reactivity c).leavingGroup = "CN") ∧
      (m "[F-]" = false → m "F" = false → m "Cl" = false → m "Br" = false → m "C#N" = false →
        m "[S]" = true → (analyze_reactivity c).leavingGroup = "S") ∧
      (m "[F-]" = false → m "F" = false → m "Cl" = false → m "Br" = false → m "C#N" = false →
        m "[S]" = false → (analyze_reactivity c).leavingGroup = "Other")) ∧
    (c.mol = none → (analyze_reactivity c).leavingGroup = "Other") := by
  constructor
  · intro hm
    refine ⟨?_, ?_, ?_, ?_, ?_, ?_⟩ <;>
      · intros
        simp_all [analyze_reactivity]
  · intro hm
    simp [analyze_reactivity, hm]

/-- C9 witness: a molecule whose oracle matches both the plain fluorine and
the chlorine pattern resolves to `"F"`, and a record with no structural data
resolves to `"Other"`. -/
theorem leavingGroup_cascade_witness :
    (analyze_reactivity
        { mol := some (fun p => p == "F" || p == "Cl") }).leavingGroup = "F" ∧
    (analyze_reactivity ({ mol := none } : Compound)).leavingGroup = "Other" :=
  ⟨((leavingGroup_cascade { mol := some (fun p => p == "F" || p == "Cl") }
      (fun p => p == "F" || p == "Cl")).1 rfl).1 (by decide),
    (leavingGroup_cascade ({ mol := none } : Compound) (fun _ => false)).2 rfl⟩

/-- C10: the rate-constant predictor is total on arbitrary attribute bags —
the embedding returns a plain `KrPrediction` for every record, with no error
path — and its silent substitutions are observational: a record with no
molecular weight is predicted exactly like the same record with `MW = 100`,
and a record whose logP is absent, null, or exactly `0` is predicted exactly
like the same record with `logP = 0.3`. -/
theorem predict_kr_total_defaults (O : FloatOps) (c : Compound) :
    (c.MW = none → predict_kr O c = predict_kr O { c with MW := some 100 }) ∧
    ((c.logP = none ∨ c.logP = some 0) →
      predict_kr O c = predict_kr O { c with logP := some (3/10) }) := by
  obtain ⟨nm, cas, MW, lp, lk, hcn, vp, sol, cls, mol, ae⟩ := c
  constructor
  · intro h
    dsimp only at h
    subst h
    have h1 : analyze_reactivity ⟨nm, cas, some 100, lp, lk, hcn, vp, sol, cls, mol, ae⟩ =
        analyze_reactivity ⟨nm, cas, none, lp, lk, hcn, vp, sol, cls, mol, ae⟩ := by
      unfold analyze_reactivity
      rcases mol with _ | m <;> norm_num [stericBucket]
    have h2 : logPOrDefault ⟨nm, cas, some 100, lp, lk, hcn, vp, sol, cls, mol, ae⟩ =
        logPOrDefault ⟨nm, cas, none, lp, lk, hcn, vp, sol, cls, mol, ae⟩ := rfl
    simp only [predict_kr, h1, h2, Option.getD_some, Option.getD_none]
  · intro h
    dsimp only at h
    have h1 : analyze_reactivity ⟨nm, cas, MW, some (3/10), lk, hcn, vp, sol, cls, mol, ae⟩ =
        analyze_reactivity ⟨nm, cas, MW, lp, lk, hcn, vp, sol, cls, mol, ae⟩ := by
      unfold analyze_reactivity
      rcases mol with _ | m <;> norm_num
    have h2 : logPOrDefault ⟨nm, cas, MW, some (3/10), lk, hcn, vp, sol, cls, mol, ae⟩ =
        logPOrDefault ⟨nm, cas, MW, lp, lk, hcn, vp, sol, cls, mol, ae⟩ := by
      rcases h with h | h <;> subst h <;> norm_num [logPOrDefault]
    simp only [predict_kr, h1, h2]

/-- C10 witness: on a record with `MW` absent and `logP = 0`, both
substitution equations hold concretely. -/
theorem predict_kr_total_defaults_witness :
    predict_kr trivialOps { logP := some 0 } =
        predict_kr trivialOps { ({ logP := some 0 } : Compound) with MW := some 100 } ∧
      predict_kr trivialOps { logP := some 0 } =
        predict_kr trivialOps { ({ logP := some 0 } : Compound) with logP := some (3/10) } :=
  ⟨(predict_kr_total_defaults trivialOps { logP := some 0 }).1 rfl,
    (predict_kr_total_defaults trivialOps { logP := some 0 }).2 (Or.inr rfl)⟩

/-- If the sign-change test already fails at the current high bound, the
expansion loop stops immediately, whatever budget remains. -/
theorem expandHi_of_stop (f : ℚ → ℚ) (fLo hi : ℚ) (h : ¬ 0 < fLo * f hi) (b : ℕ) :
    expandHi f fLo b hi = hi := by
  cases b with
  | zero => rfl
  | succ b => simp [expandHi, h]

/-- The expansion loop stops at the first expansion count `k` within budget
at which the bracket product becomes non-positive, returning the high bound
expanded `k` times. -/
theorem expandHi_first_sign_change (f : ℚ → ℚ) (fLo : ℚ) :
    ∀ (k b : ℕ) (hi : ℚ), k ≤ b →
      (∀ j, j < k → 0 < fLo * f (hi * (3/2) ^ j)) →
      fLo * f (hi * (3/2) ^ k) ≤ 0 →
      expandHi f fLo b hi = hi * (3/2) ^ k := by
  intro k
  induction k with
  | zero =>
    intro b hi _ _ hstop
    rw [pow_zero, mul_one] at hstop ⊢
    exact expandHi_of_stop f fLo hi (not_lt.mpr hstop) b
  | succ k ih =>
    intro b hi hkb hbefore hstop
    obtain ⟨b', rfl⟩ : ∃ b', b = b' + 1 := ⟨b - 1, by omega⟩
    have h0 : 0 < fLo * f hi := by
      have := hbefore 0 (Nat.succ_pos k)
      rwa [pow_zero, mul_one] at this
    rw [show expandHi f fLo (b' + 1) hi = expandHi f fLo b' (hi * (3/2)) from by
      simp [expandHi, h0]]
    have harg : ∀ j : ℕ, hi * (3/2) * (3/2 : ℚ) ^ j = hi * (3/2) ^ (j + 1) := by
      intro j; ring
    rw [ih b' (hi * (3/2)) (by omega)
      (fun j hj => by rw [harg j]; exact hbefore (j + 1) (by omega))
      (by rw [harg k]; exact hstop)]
    rw [harg k]

/-- If the bracket product stays positive for every expansion count within
budget, the loop exhausts the budget and returns the fully expanded bound. -/
theorem expandHi_budget_exhausted (f : ℚ → ℚ) (fLo : ℚ) :
    ∀ (b : ℕ) (hi : ℚ), (∀ j, j ≤ b → 0 < fLo * f (hi * (3/2) ^ j)) →
      expandHi f fLo b hi = hi * (3/2) ^ b := by
  intro b
  induction b with
  | zero =>
    intro hi _
    rw [pow_zero, mul_one]; rfl
  | succ b ih =>
    intro hi hall
    have h0 : 0 < fLo * f hi := by
      have := hall 0 (Nat.zero_le _)
      rwa [pow_zero, mul_one] at this
    rw [show expandHi f fLo (b + 1) hi = expandHi f fLo b (hi * (3/2)) from by
      simp [expandHi, h0]]
    rw [ih (hi * (3/2)) (fun j hj => by
      rw [show hi * (3/2) * (3/2 : ℚ) ^ j = hi * (3/2) ^ (j + 1) from by ring]
      exact hall (j + 1) (by omega))]
    ring

/-- C1: for every residual `f` (the dose function minus the allowable dose)
and every caller-supplied initial guess `x0 ≥ 1` (the repo calls this solver
with `x0 = 200` and `x0 = 20`, default `200`), `findTimeToDose` first attempts
bracketing with low bound `0` and high bound equal to `x0`, expanding the high
bound by a factor `1.5` at most 40 times until the residual changes sign
across the bracket; if a sign change is found (first at expansion count
`k ≤ 40`), it solves with the bracketed `brentq` method on `(0, x0·1.5^k)`;
if the product is still positive after every expansion within budget, it
falls back to the open Newton method seeded at the original `x0`. -/
theorem findTimeToDose_policy (f : ℚ → ℚ) (x0 : ℚ) (hx : 1 ≤ x0) :
    (∀ k : ℕ, k ≤ 40 →
      (∀ j, j < k → 0 < f 0 * f (x0 * (3/2) ^ j)) →
      f 0 * f (x0 * (3/2) ^ k) ≤ 0 →
      findTimeToDoseMethod f x0 = RootMethod.bracketed 0 (x0 * (3/2) ^ k)) ∧
    ((∀ k : ℕ, k ≤ 40 → 0 < f 0 * f (x0 * (3/2) ^ k)) →
      findTimeToDoseMethod f x0 = RootMethod.openNewton x0) := by
  have hmax : max (1 : ℚ) x0 = x0 := max_eq_right hx
  constructor
  · intro k hk hbefore hstop
    show (if f 0 * f (expandHi f (f 0) 40 (max 1 x0)) ≤ 0 then _ else _) = _
    rw [hmax, expandHi_first_sign_change f (f 0) k 40 x0 hk hbefore hstop, if_pos hstop]
  · intro hall
    show (if f 0 * f (expandHi f (f 0) 40 (max 1 x0)) ≤ 0 then _ else _) = _
    rw [hmax, expandHi_budget_exhausted f (f 0) 40 x0 (fun j hj => hall j hj),
      if_neg (not_le.mpr (hall 40 le_rfl))]

/-- C1 witness: for the residual `f t = t - 2` with initial guess `x0 = 1`,
the product is positive for the first two bounds `1`, `1.5` and changes sign
at the third bound `2.25`, so the solver picks the bracketed method on
`(0, 2.25)`. -/
theorem findTimeToDose_policy_witness :
    (1 : ℚ) ≤ 1 ∧
    findTimeToDoseMethod (fun t => t - 2) 1 = RootMethod.bracketed 0 (1 * (3/2) ^ 2) :=
  ⟨le_refl 1,
    (findTimeToDose_policy (fun t => t - 2) 1 le_rfl).1 2 (by norm_num)
      (fun j hj => by interval_cases j <;> norm_num) (by norm_num)⟩

/-- C2: for every record in which Henry's constant is absent or not a
positive number but molecular weight and logP are present,
`initParamsFromRow` succeeds rather than failing: the gas/water partition is
computed from the documented fallback constant `hcp = 1/1000` — so
`kwg = (1/1000)·R·T` and `kscg = kscw·(1/1000)·R·T` instead of using
`(1/Henry)/1000` — and for any strictly positive exposure limit and exposed
fraction (with float powers returning positive rationals) the resulting
steady-state vapor flux is a strictly positive, hence finite, rational. -/
theorem initParamsFromRow_henry_fallback (pow10 : ℚ → ℚ) (rpowQ : ℚ → ℚ → ℚ)
    (row : Compound) (aegl bw ef mw lp : ℚ)
    (hMW : row.MW = some mw) (hLP : row.logP = some lp)
    (hH : row.henryConstant = none ∨ ∃ H, row.henryConstant = some H ∧ ¬ 0 < H)
    (hpow : ∀ q, 0 < pow10 q) (hrpow : ∀ a b, 0 ≤ rpowQ a b)
    (haegl : 0 < aegl) (hef : 0 < ef) :
    ∃ p, initParamsFromRow pow10 rpowQ row aegl bw ef = Except.ok p ∧
      p.kwg = 1/1000 * (821/10000) * (29815/100) ∧
      p.kscg = p.kscw * p.kwg ∧
      0 < vaporSteadyFluxOf p := by
  have hkscw : 0 < 4/100 * rpowQ (pow10 lp) (81/100) +
      406/100 * rpowQ (pow10 lp) (27/100) + 359/1000 := by
    have h1 := mul_nonneg (by norm_num : (0:ℚ) ≤ 4/100) (hrpow (pow10 lp) (81/100))
    have h2 := mul_nonneg (by norm_num : (0:ℚ) ≤ 406/100) (hrpow (pow10 lp) (27/100))
    linarith
  have hflux : ∀ p : AqParams, p.a1 = ef * 18150 →
      p.kscg = (4/100 * rpowQ (pow10 lp) (81/100) + 406/100 * rpowQ (pow10 lp) (27/100) +
        359/1000) * (1/1000 * (821/10000) * (29815/100)) →
      p.hsc = 10 * (1/10000) →
      p.cv = 1/1000000 * aegl →
      p.dsc = pow10 (-(28/10) + 66/100 * lp - 56/10000 * mw) * (10 * (1/10000)) /
        (4/100 * rpowQ (pow10 lp) (81/100) + 406/100 * rpowQ (pow10 lp) (27/100) + 359/1000) →
      0 < vaporSteadyFluxOf p := by
    intro p ha1 hkscg hhsc hcv hdsc
    unfold vaporSteadyFluxOf
    rw [ha1, hkscg, hhsc, hcv, hdsc]
    have hdscpos : 0 < pow10 (-(28/10) + 66/100 * lp - 56/10000 * mw) * (10 * (1/10000)) /
        (4/100 * rpowQ (pow10 lp) (81/100) + 406/100 * rpowQ (pow10 lp) (27/100) + 359/1000) :=
      div_pos (mul_pos (hpow _) (by norm_num)) hkscw
    have hkscgpos : 0 < (4/100 * rpowQ (pow10 lp) (81/100) +
        406/100 * rpowQ (pow10 lp) (27/100) + 359/1000) *
        (1/1000 * (821/10000) * (29815/100)) := mul_pos hkscw (by norm_num)
    apply div_pos ?_ (by norm_num : (0:ℚ) < (10 * (1/10000)) ^ 2)
    exact mul_pos (mul_pos (mul_pos (mul_pos (mul_pos hef (by norm_num)) hkscgpos)
      (by norm_num)) (mul_pos (by norm_num) haegl)) hdscpos
  rcases hH with hH | ⟨H, hH, hHn⟩
  · refine ⟨_, by simp only [initParamsFromRow, getItem, hMW, hLP, hH]; rfl,
      rfl, rfl, hflux _ rfl rfl rfl rfl rfl⟩
  · refine ⟨_, by simp only [initParamsFromRow, getItem, hMW, hLP, hH, if_neg hHn]; rfl,
      rfl, rfl, hflux _ rfl rfl rfl rfl rfl⟩

/-- C2 witness: a record with `MW = 100`, `logP = 1` and no Henry's constant,
with unit float powers, exposure limit 1 and exposed fraction 0.1, succeeds
with the fallback `kwg` and a positive steady-state flux. -/
theorem initParamsFromRow_henry_fallback_witness :
    ∃ p, initParamsFromRow (fun _ => 1) (fun _ _ => 1)
        { MW := some 100, logP := some 1 } 1 70 (1/10) = Except.ok p ∧
      p.kwg = 1/1000 * (821/10000) * (29815/100) ∧
      p.kscg = p.kscw * p.kwg ∧
      0 < vaporSteadyFluxOf p :=
  initParamsFromRow_henry_fallback (fun _ => 1) (fun _ _ => 1)
    { MW := some 100, logP := some 1 } 1 70 (1/10) 100 1 rfl rfl (Or.inl rfl)
    (fun _ => one_pos) (fun _ _ => zero_le_one) one_pos (by norm_num)

/-- C5 counterexample: on a compound whose `AEGL1_8hr` limit is present but
non-positive (−5) — all other fields populated — the call does not fail with
a typed error at all: `analyzeSingleAegl` returns the `"NotAvailable"`
sentinel.  This refutes the claim that a non-positive exposure limit makes
the call fail immediately with a typed error identifying a field. -/
theorem analyzeSingleAegl_nonpositive_limit_no_error :
    analyzeSingleAegl trivialOps
        { sampleCompound with aeglEntries := [((1, "8hr"), some (-5))] } 1 "8hr" =
      Except.ok SingleOutcome.notAvailable ∧
    ∀ e, analyzeSingleAegl trivialOps
        { sampleCompound with aeglEntries := [((1, "8hr"), some (-5))] } 1 "8hr" ≠
      Except.error e := by
  have h1 : analyzeSingleAegl trivialOps
      { sampleCompound with aeglEntries := [((1, "8hr"), some (-5))] } 1 "8hr" =
      Except.ok SingleOutcome.notAvailable := by rfl
  exact ⟨h1, fun e h => by simp [h1] at h⟩

/-- C5 (amended): precondition handling of `analyzeSingleAegl`.  With a valid
exposure limit, a missing molecular weight raises `KeyError("MW")` and is
never defaulted; when `logKow` and `logP` are both absent (the other kinetics
fields present), the call raises a `TypeError` at the first use
`kow = 10 ** logKow` — a typed error, but one that does not name the missing
field; and a missing or non-positive exposure limit does not raise: it
returns the `"NotAvailable"` sentinel.  In every case no default is
substituted and the kinetics computation does not proceed. -/
theorem analyzeSingleAegl_preconditions (O : FloatOps) (c : Compound) (l : ℕ) (t : String) :
    (getAeglValue c l t ≠ .notAvailable → c.MW = none →
      analyzeSingleAegl O c l t = Except.error (PyError.keyError "MW")) ∧
    (getAeglValue c l t ≠ .notAvailable → c.MW.isSome = true → c.logKow = none →
      c.logP = none → c.henryConstant.isSome = true → c.vaporPressure.isSome = true →
      c.solubility.isSome = true →
      analyzeSingleAegl O c l t = Except.error PyError.typeError) ∧
    (getAeglValue c l t = .notAvailable →
      analyzeSingleAegl O c l t = Except.ok SingleOutcome.notAvailable) := by
  refine ⟨?_, ?_, ?_⟩
  · intro hv hMW
    rcases hval : getAeglValue c l t with _ | v
    · exact absurd hval hv
    · simp [analyzeSingleAegl, hval, getItem, hMW]
  · intro hv hMW hlk hlp hh hvp hsol
    rcases hval : getAeglValue c l t with _ | v
    · exact absurd hval hv
    · obtain ⟨mw, hmw⟩ := Option.isSome_iff_exists.mp hMW
      obtain ⟨hc, hhc⟩ := Option.isSome_iff_exists.mp hh
      obtain ⟨vp, hvpv⟩ := Option.isSome_iff_exists.mp hvp
      obtain ⟨sol, hsolv⟩ := Option.isSome_iff_exists.mp hsol
      simp [analyzeSingleAegl, hval, getItem, hmw, hlk, hlp, hhc, hvpv, hsolv]
  · intro hv
    simp [analyzeSingleAegl, hv]

/-- C5 amended-claim witness: a compound missing `MW` raises
`KeyError("MW")`, one missing both `logKow` and `logP` raises `TypeError`,
and one whose only AEGL entry is non-positive returns the sentinel. -/
theorem analyzeSingleAegl_preconditions_witness :
    analyzeSingleAegl trivialOps { sampleCompound with MW := none } 1 "8hr" =
      Except.error (PyError.keyError "MW") ∧
    analyzeSingleAegl trivialOps { sampleCompound with logKow := none, logP := none } 1 "8hr" =
      Except.error PyError.typeError ∧
    analyzeSingleAegl trivialOps sampleCompound 2 "8hr" =
      Except.ok SingleOutcome.notAvailable :=
  ⟨(analyzeSingleAegl_preconditions trivialOps { sampleCompound with MW := none }
      1 "8hr").1 (by decide) rfl,
    (analyzeSingleAegl_preconditions trivialOps
      { sampleCompound with logKow := none, logP := none } 1 "8hr").2.1
      (by decide) (by decide) rfl rfl (by decide) (by decide) (by decide),
    (analyzeSingleAegl_preconditions trivialOps sampleCompound 2 "8hr").2.2 (by decide)⟩

/-- With all kinetics fields present, `analyzeSingleAegl` never raises: every
outcome is either a result dict or the `"NotAvailable"` sentinel. -/
theorem analyzeSingleAegl_no_error (O : FloatOps) (c : Compound)
    (hMW : c.MW.isSome = true) (hLK : c.logKow.isSome = true ∨ c.logP.isSome = true)
    (hH : c.henryConstant.isSome = true) (hVP : c.vaporPressure.isSome = true)
    (hS : c.solubility.isSome = true) (hN : c.Name.isSome = true) (hC : c.CAS.isSome = true)
    (l : ℕ) (t : String) :
    ∀ e, analyzeSingleAegl O c l t ≠ Except.error e := by
  intro e
  obtain ⟨mw, hmw⟩ := Option.isSome_iff_exists.mp hMW
  obtain ⟨hc, hhc⟩ := Option.isSome_iff_exists.mp hH
  obtain ⟨vp, hvp⟩ := Option.isSome_iff_exists.mp hVP
  obtain ⟨sol, hsol⟩ := Option.isSome_iff_exists.mp hS
  obtain ⟨nm, hnm⟩ := Option.isSome_iff_exists.mp hN
  obtain ⟨cas, hcas⟩ := Option.isSome_iff_exists.mp hC
  rcases hval : getAeglValue c l t with _ | v
  · simp [analyzeSingleAegl, hval]
  · rcases hlk : c.logKow with _ | lk
    · rcases hLK with h | h
      · rw [hlk] at h; simp at h
      · obtain ⟨lp, hlp⟩ := Option.isSome_iff_exists.mp h
        simp [analyzeSingleAegl, hval, hmw, hhc, hvp, hsol, hlk, hlp, hnm, hcas]
    · simp [analyzeSingleAegl, hval, hmw, hhc, hvp, hsol, hlk, hnm, hcas]

/-- The accumulator loop is isolation-safe: when no combination raises, it
returns the accumulator extended by exactly the per-combination optional
results, in combination order. -/
theorem runCombos_eq_filterMap (O : FloatOps) (c : Compound)
    (hok : ∀ (p : ℕ × String) (e : PyError), analyzeSingleAegl O c p.1 p.2 ≠ Except.error e) :
    ∀ (ps : List (ℕ × String)) (acc : List KineticsRecord),
      runCombos O c ps acc = Except.ok (acc ++ ps.filterMap (singleResultOpt O c)) := by
  intro ps
  induction ps with
  | nil => intro acc; simp [runCombos]
  | cons p ps ih =>
    intro acc
    cases hres : analyzeSingleAegl O c p.1 p.2 with
    | error e => exact absurd hres (hok p e)
    | ok o =>
      cases o with
      | notAvailable =>
        simp [runCombos, hres, singleResultOpt, List.filterMap_cons, ih]
      | result r =>
        simp [runCombos, hres, singleResultOpt, List.filterMap_cons, ih]

/-- C4: on a compound whose kinetics fields are all present, a root-finding
failure on one (tier, duration) pair never aborts the batch.  First, for an
arbitrary `newton` oracle (so for an arbitrary pattern of per-pair failures)
the runner returns, without raising, exactly one optional contribution per
combination in order — so it always continues to the next combination.
Second, every pair with a valid exposure limit contributes a result dict that
is appended to the collection, and if `newton` raises on that pair's residual
the appended dict carries the explicit `"FindRootFailed"` marker in its
`tReach` field. -/
theorem analyzeAllAegls_failure_isolation (O : FloatOps)
    (setInter : List String → List String → List String)
    (c : Compound) (sel : Option (List String))
    (hMW : c.MW.isSome = true) (hLK : c.logKow.isSome = true ∨ c.logP.isSome = true)
    (hH : c.henryConstant.isSome = true) (hVP : c.vaporPressure.isSome = true)
    (hS : c.solubility.isSome = true) (hN : c.Name.isSome = true) (hC : c.CAS.isSome = true) :
    analyzeAllAegls O setInter c sel =
      Except.ok ((aeglCombos setInter c sel).filterMap (singleResultOpt O c)) ∧
    (∀ (l : ℕ) (t : String) (v : ℚ), getAeglValue c l t = .val v →
      ∃ r, singleResultOpt O c (l, t) = some r ∧
        (O.newton (newtonResidual O (1/10 * 18150) r.kscg r.cv r.dsc (10 * (1/10000)) 10
            r.qallow) 100 = .fails → r.tReach = .findRootFailed)) := by
  constructor
  · exact runCombos_eq_filterMap O c
      (fun p e => analyzeSingleAegl_no_error O c hMW hLK hH hVP hS hN hC p.1 p.2 e) _ _
  · intro l t v hval
    obtain ⟨mw, hmw⟩ := Option.isSome_iff_exists.mp hMW
    obtain ⟨hcv, hhc⟩ := Option.isSome_iff_exists.mp hH
    obtain ⟨vp, hvp⟩ := Option.isSome_iff_exists.mp hVP
    obtain ⟨sol, hsol⟩ := Option.isSome_iff_exists.mp hS
    obtain ⟨nm, hnm⟩ := Option.isSome_iff_exists.mp hN
    obtain ⟨cas, hcas⟩ := Option.isSome_iff_exists.mp hC
    have hkow : ∃ lk, (match c.logKow with
        | some v => some v
        | none => c.logP : Option ℚ) = some lk := by
      rcases hlk : c.logKow with _ | lk
      · rcases hLK with h | h
        · rw [hlk] at h; simp at h
        · obtain ⟨lp, hlp⟩ := Option.isSome_iff_exists.mp h
          exact ⟨lp, by simp [hlp]⟩
      · exact ⟨lk, rfl⟩
    obtain ⟨lk, hlk⟩ := hkow
    simp only [singleResultOpt, analyzeSingleAegl, hval, hmw, hhc, hvp, hsol, hlk, hnm, hcas]
    refine ⟨_, rfl, fun hf => ?_⟩
    dsimp only at hf ⊢
    simp only [tReachOf]
    rw [hf]

/-- C4 witness: on the fully populated sample compound with a `newton` that
always raises, the runner still returns (one contribution per combination)
and the `(1, "8hr")` pair contributes a result carrying the
`"FindRootFailed"` marker. -/
theorem analyzeAllAegls_failure_isolation_witness :
    analyzeAllAegls failingNewtonOps (fun pre _ => pre) sampleCompound
        (some ["8hr", "4hr"]) =
      Except.ok ((aeglCombos (fun pre _ => pre) sampleCompound
        (some ["8hr", "4hr"])).filterMap (singleResultOpt failingNewtonOps sampleCompound)) ∧
    ∃ r, singleResultOpt failingNewtonOps sampleCompound (1, "8hr") = some r ∧
      r.tReach = .findRootFailed := by
  have h := analyzeAllAegls_failure_isolation failingNewtonOps (fun pre _ => pre)
    sampleCompound (some ["8hr", "4hr"]) rfl (Or.inl rfl) rfl rfl rfl rfl rfl
  obtain ⟨r, hr, hmark⟩ := h.2 1 "8hr" 2 rfl
  exact ⟨h.1, r, hr, hmark rfl⟩

/-- Every combination with a valid limit contributes a result dict carrying
that combination's tier and duration; a combination with a missing or
non-positive limit contributes nothing. -/
theorem resultKeys_filterMap (O : FloatOps) (c : Compound)
    (hMW : c.MW.isSome = true) (hLK : c.logKow.isSome = true ∨ c.logP.isSome = true)
    (hH : c.henryConstant.isSome = true) (hVP : c.vaporPressure.isSome = true)
    (hS : c.solubility.isSome = true) (hN : c.Name.isSome = true) (hC : c.CAS.isSome = true) :
    ∀ ps : List (ℕ × String),
      resultKeys (ps.filterMap (singleResultOpt O c)) =
        ps.filter (fun p => getAeglValue c p.1 p.2 ≠ AeglValue.notAvailable) := by
  have hnone : ∀ (l : ℕ) (t : String), getAeglValue c l t = .notAvailable →
      singleResultOpt O c (l, t) = none := by
    intro l t hv
    simp [singleResultOpt, analyzeSingleAegl, hv]
  have hsome : ∀ (l : ℕ) (t : String), getAeglValue c l t ≠ .notAvailable →
      ∃ r, singleResultOpt O c (l, t) = some r ∧ r.aeglLevel = l ∧ r.timeStr = t := by
    intro l t hv
    obtain ⟨mw, hmw⟩ := Option.isSome_iff_exists.mp hMW
    obtain ⟨hcv, hhc⟩ := Option.isSome_iff_exists.mp hH
    obtain ⟨vp, hvp⟩ := Option.isSome_iff_exists.mp hVP
    obtain ⟨sol, hsol⟩ := Option.isSome_iff_exists.mp hS
    obtain ⟨nm, hnm⟩ := Option.isSome_iff_exists.mp hN
    obtain ⟨cas, hcas⟩ := Option.isSome_iff_exists.mp hC
    have hkow : ∃ lk, (match c.logKow with
        | some v => some v
        | none => c.logP : Option ℚ) = some lk := by
      rcases hlk : c.logKow with _ | lk
      · rcases hLK with h | h
        · rw [hlk] at h; simp at h
        · obtain ⟨lp, hlp⟩ := Option.isSome_iff_exists.mp h
          exact ⟨lp, by simp [hlp]⟩
      · exact ⟨lk, rfl⟩
    obtain ⟨lk, hlk⟩ := hkow
    rcases hval : getAeglValue c l t with _ | v
    · exact absurd hval hv
    · simp only [singleResultOpt, analyzeSingleAegl, hval, hmw, hhc, hvp, hsol, hlk,
        hnm, hcas]
      exact ⟨_, rfl, rfl, rfl⟩
  intro ps
  induction ps with
  | nil => rfl
  | cons p ps ih =>
    by_cases hv : getAeglValue c p.1 p.2 = .notAvailable
    · simp [List.filterMap_cons, hnone p.1 p.2 hv, List.filter_cons, hv, ih]
    · obtain ⟨r, hr, hl, ht⟩ := hsome p.1 p.2 hv
      simp [List.filterMap_cons, hr, resultKeys, List.filter_cons, hv, hl, ht]
      simpa [resultKeys] using ih

/-- C3 (amended): for every enumeration `setInter` of the Python set
intersection `list(set(selected) & set(available))`, the runner returns its
results ordered by tier ascending (1, 2, 3) and, within each tier, by the
order in which `setInter` enumerates the intersection — which is CPython's
hash-dependent set order, not the caller-supplied or a fixed canonical
duration order; combinations without a valid limit are skipped.  The order is
deterministic only relative to that enumeration. -/
theorem analyzeAllAegls_result_order (O : FloatOps)
    (setInter : List String → List String → List String)
    (c : Compound) (sel : Option (List String))
    (hMW : c.MW.isSome = true) (hLK : c.logKow.isSome = true ∨ c.logP.isSome = true)
    (hH : c.henryConstant.isSome = true) (hVP : c.vaporPressure.isSome = true)
    (hS : c.solubility.isSome = true) (hN : c.Name.isSome = true) (hC : c.CAS.isSome = true) :
    ∃ rs, analyzeAllAegls O setInter c sel = Except.ok rs ∧
      resultKeys rs =
        ([1, 2, 3] : List ℕ).flatMap (fun l =>
          ((timesToAnalyze setInter c sel).filter
            (fun t => getAeglValue c l t ≠ AeglValue.notAvailable)).map (fun t => (l, t))) := by
  refine ⟨_, runCombos_eq_filterMap O c
    (fun p e => analyzeSingleAegl_no_error O c hMW hLK hH hVP hS hN hC p.1 p.2 e) _ _, ?_⟩
  rw [List.nil_append,
    resultKeys_filterMap O c hMW hLK hH hVP hS hN hC (aeglCombos setInter c sel)]
  simp only [aeglCombos, List.flatMap_cons, List.flatMap_nil, List.filter_append,
    List.append_nil, List.filter_map]
  rfl

/-- C3 counterexample: the runner's result order depends on the CPython set
enumeration order, which is hash-randomized per interpreter run.  With the
caller-supplied duration list `["8hr", "4hr"]`, one possible enumeration of
`set(selected) & set(available)` gives results in the order
`[(1,"8hr"), (1,"4hr")]`, another gives `[(1,"4hr"), (1,"8hr")]` — the latter
matches neither the caller-supplied nor the canonical 8hr-first order, and two
runs on identical inputs (the compound and the selected durations) produce
different orders, refuting both the stated within-tier ordering and
run-to-run stability. -/
theorem analyzeAllAegls_order_hash_dependent :
    (analyzeAllAegls trivialOps (fun pre _ => pre) sampleCompound
        (some ["8hr", "4hr"])).map resultKeys =
      Except.ok [(1, "8hr"), (1, "4hr")] ∧
    (analyzeAllAegls trivialOps (fun _ _ => ["4hr", "8hr"]) sampleCompound
        (some ["8hr", "4hr"])).map resultKeys =
      Except.ok [(1, "4hr"), (1, "8hr")] ∧
    (analyzeAllAegls trivialOps (fun pre _ => pre) sampleCompound
        (some ["8hr", "4hr"])).map resultKeys ≠
      (analyzeAllAegls trivialOps (fun _ _ => ["4hr", "8hr"]) sampleCompound
        (some ["8hr", "4hr"])).map resultKeys := by
  have h1 : (analyzeAllAegls trivialOps (fun pre _ => pre) sampleCompound
      (some ["8hr", "4hr"])).map resultKeys = Except.ok [(1, "8hr"), (1, "4hr")] := by rfl
  have h2 : (analyzeAllAegls trivialOps (fun _ _ => ["4hr", "8hr"]) sampleCompound
      (some ["8hr", "4hr"])).map resultKeys = Except.ok [(1, "4hr"), (1, "8hr")] := by rfl
  refine ⟨h1, h2, fun h => ?_⟩
  rw [h1, h2] at h
  simp at h

/-- C3 amended-claim witness: on the sample compound with the enumeration
that returns `["4hr", "8hr"]`, the runner's result keys are exactly tier 1
in that enumeration order. -/
theorem analyzeAllAegls_result_order_witness :
    ∃ rs, analyzeAllAegls trivialOps (fun _ _ => ["4hr", "8hr"]) sampleCompound
        (some ["8hr", "4hr"]) = Except.ok rs ∧
      resultKeys rs =
        ([1, 2, 3] : List ℕ).flatMap (fun l =>
          ((timesToAnalyze (fun _ _ => ["4hr", "8hr"]) sampleCompound
            (some ["8hr", "4hr"])).filter
            (fun t => getAeglValue sampleCompound l t ≠ AeglValue.notAvailable)).map
            (fun t => (l, t))) :=
  analyzeAllAegls_result_order trivialOps (fun _ _ => ["4hr", "8hr"]) sampleCompound
    (some ["8hr", "4hr"]) rfl (Or.inl rfl) rfl rfl rfl rfl rfl

theorem thetaTerm_neg (s : ℝ) (n : ℤ) : thetaTerm s (-n) = thetaTerm s n := by
  unfold thetaTerm
  have h1 : ((-1 : ℝ) ^ (-n) : ℝ) = (-1 : ℝ) ^ n := by
    rw [zpow_neg]
    rcases Int.even_or_odd n with h | h
    · rw [h.neg_one_zpow]; norm_num
    · rw [h.neg_one_zpow]; norm_num
  rw [h1]
  push_cast
  ring_nf

theorem abs_thetaTerm (s : ℝ) (n : ℤ) : |thetaTerm s n| = Real.exp (-((n : ℝ) * n) * s) := by
  unfold thetaTerm
  rw [abs_mul, abs_of_pos (Real.exp_pos _)]
  rcases Int.even_or_odd n with h | h
  · rw [h.neg_one_zpow]; norm_num
  · rw [h.neg_one_zpow]; norm_num

theorem nat_le_mul_self (n : ℕ) : (n : ℝ) ≤ (n : ℝ) * n := by
  rcases Nat.eq_zero_or_pos n with h | h
  · subst h; norm_num
  · have h1 : (1 : ℝ) ≤ (n : ℝ) := by exact_mod_cast h
    nlinarith

theorem summable_theta_nat (s : ℝ) (hs : 0 < s) :
    Summable (fun n : ℕ => Real.exp (-((n : ℝ) * n) * s)) := by
  have hgeom : Summable (fun n : ℕ => Real.exp (-s) ^ n) :=
    summable_geometric_of_lt_one (Real.exp_pos _).le (Real.exp_lt_one_iff.mpr (by linarith))
  refine Summable.of_nonneg_of_le (fun n => (Real.exp_pos _).le) (fun n => ?_) hgeom
  rw [← Real.exp_nat_mul]
  apply Real.exp_le_exp.mpr
  have := nat_le_mul_self n
  nlinarith

theorem summable_thetaTerm (s : ℝ) (hs : 0 < s) : Summable (thetaTerm s) := by
  have key : Summable (fun n : ℕ => thetaTerm s n) := by
    refine (Summable.of_nonneg_of_le (fun n => abs_nonneg _) (fun n => ?_)
      (summable_theta_nat s hs)).of_abs
    rw [abs_thetaTerm]
    push_cast
    exact le_refl _
  refine Summable.of_nat_of_neg key ?_
  have h : (fun n : ℕ => thetaTerm s (-(n : ℤ))) = fun n : ℕ => thetaTerm s n := by
    funext n; rw [thetaTerm_neg]
  rw [h]; exact key

theorem summable_gaussTerm (s : ℝ) (hs : 0 < s) : Summable (gaussTerm s) := by
  have hc : 0 < Real.pi ^ 2 / s := div_pos (pow_pos Real.pi_pos 2) hs
  have hgeom : Summable (fun n : ℕ => Real.exp (-(Real.pi ^ 2 / s)) ^ n) :=
    summable_geometric_of_lt_one (Real.exp_pos _).le (Real.exp_lt_one_iff.mpr (by linarith))
  refine Summable.of_nat_of_neg ?_ ?_
  · refine Summable.of_nonneg_of_le (fun n => (Real.exp_pos _).le) (fun n => ?_)
      (hgeom.mul_left (Real.exp (Real.pi ^ 2 / s)))
    unfold gaussTerm
    rw [← Real.exp_nat_mul, ← Real.exp_add]
    apply Real.exp_le_exp.mpr
    push_cast
    nlinarith [sq_nonneg ((n : ℝ) - 1), hc]
  · refine Summable.of_nonneg_of_le (fun n => (Real.exp_pos _).le) (fun n => ?_) hgeom
    unfold gaussTerm
    rw [← Real.exp_nat_mul]
    apply Real.exp_le_exp.mpr
    push_cast
    nlinarith [sq_nonneg (n : ℝ), hc]

theorem tsum_gaussTerm_pos (s : ℝ) (hs : 0 < s) : 0 < tsum (fun n : ℤ => gaussTerm s n) :=
  tsum_pos (summable_gaussTerm s hs) (fun _ => (Real.exp_pos _).le) 0 (Real.exp_pos _)

theorem tsum_thetaTerm_eq (s : ℝ) (hs : 0 < s) :
    tsum (fun n : ℤ => thetaTerm s n) =
      ((s / Real.pi) ^ ((1 : ℝ)/2))⁻¹ * tsum (fun n : ℤ => gaussTerm s n) := by
  have hsπ : (0 : ℝ) < s / Real.pi := div_pos hs Real.pi_pos
  have hπ : (Real.pi : ℂ) ≠ 0 := Complex.ofReal_ne_zero.mpr Real.pi_ne_zero
  have hsne : (s : ℂ) ≠ 0 := Complex.ofReal_ne_zero.mpr (ne_of_gt hs)
  have key := Complex.tsum_exp_neg_quadratic
    (a := ((s / Real.pi : ℝ) : ℂ)) (by simpa using hsπ) (Complex.I / 2)
  have hL : ∀ n : ℤ,
      Complex.exp (-(Real.pi : ℂ) * ((s / Real.pi : ℝ) : ℂ) * (n : ℂ) ^ 2 +
        2 * (Real.pi : ℂ) * (Complex.I / 2) * (n : ℂ)) = ((thetaTerm s n : ℝ) : ℂ) := by
    intro n
    have harg : -(Real.pi : ℂ) * ((s / Real.pi : ℝ) : ℂ) * (n : ℂ) ^ 2 +
        2 * (Real.pi : ℂ) * (Complex.I / 2) * (n : ℂ) =
        ((-(((n : ℝ) * n) * s) : ℝ) : ℂ) + (n : ℂ) * ((Real.pi : ℂ) * Complex.I) := by
      push_cast
      field_simp
      ring
    rw [harg, Complex.exp_add, Complex.exp_int_mul, Complex.exp_pi_mul_I]
    unfold thetaTerm
    push_cast
    ring_nf
  have hR : ∀ n : ℤ,
      Complex.exp (-(Real.pi : ℂ) / ((s / Real.pi : ℝ) : ℂ) *
        ((n : ℂ) + Complex.I * (Complex.I / 2)) ^ 2) = ((gaussTerm s n : ℝ) : ℂ) := by
    intro n
    have harg : -(Real.pi : ℂ) / ((s / Real.pi : ℝ) : ℂ) *
        ((n : ℂ) + Complex.I * (Complex.I / 2)) ^ 2 =
        ((-(Real.pi ^ 2 / s) * ((n : ℝ) - 1/2) ^ 2 : ℝ) : ℂ) := by
      have hI : Complex.I * (Complex.I / 2) = -(1/2 : ℂ) := by
        rw [mul_div_assoc', Complex.I_mul_I]
        norm_num
      rw [hI]
      push_cast
      field_simp
      ring
    rw [harg, ← Complex.ofReal_exp]
    rfl
  have hpow : ((s / Real.pi : ℝ) : ℂ) ^ ((1 : ℂ)/2) =
      (((s / Real.pi) ^ ((1 : ℝ)/2) : ℝ) : ℂ) := by
    rw [Complex.ofReal_cpow hsπ.le]
    norm_num
  simp only [hL, hR, hpow] at key
  rw [← Complex.ofReal_tsum, ← Complex.ofReal_tsum] at key
  have key2 : ((tsum (fun n : ℤ => thetaTerm s n) : ℝ) : ℂ) =
      ((((s / Real.pi) ^ ((1 : ℝ)/2))⁻¹ * tsum (fun n : ℤ => gaussTerm s n) : ℝ) : ℂ) := by
    rw [key]
    push_cast
    ring_nf
  exact_mod_cast key2

theorem tsum_thetaTerm_pos (s : ℝ) (hs : 0 < s) : 0 < tsum (fun n : ℤ => thetaTerm s n) := by
  rw [tsum_thetaTerm_eq s hs]
  exact mul_pos (inv_pos.mpr (Real.rpow_pos_of_pos (div_pos hs Real.pi_pos) _))
    (tsum_gaussTerm_pos s hs)

theorem thetaTerm_natCast (s : ℝ) (n : ℕ) :
    thetaTerm s (n : ℤ) = (-1 : ℝ) ^ n * Real.exp (-((n : ℝ) * n) * s) := by
  unfold thetaTerm
  rw [zpow_natCast]
  push_cast
  ring_nf

theorem tsum_theta_nat_eq (s : ℝ) (hs : 0 < s) :
    tsum (fun n : ℕ => thetaTerm s (n : ℤ)) = ((tsum (fun n : ℤ => thetaTerm s n)) + 1) / 2 := by
  have h := (summable_thetaTerm s hs).hasSum.nat_add_neg
  have h0 : thetaTerm s 0 = 1 := by unfold thetaTerm; norm_num
  rw [h0] at h
  have he : (fun n : ℕ => thetaTerm s (n : ℤ) + thetaTerm s (-(n : ℤ))) =
      fun n : ℕ => 2 * thetaTerm s (n : ℤ) := by
    funext n; rw [thetaTerm_neg]; ring
  rw [he] at h
  have h2 := h.tsum_eq
  rw [tsum_mul_left] at h2
  linarith

theorem gTrunc_eq (s : ℝ) (hs : 0 < s) :
    gTrunc s = (tsum (fun n : ℤ => thetaTerm s n)) -
      2 * tsum (fun k : ℕ => thetaTerm s ((k : ℤ) + 11)) := by
  have hsumN : Summable (fun n : ℕ => thetaTerm s (n : ℤ)) :=
    (summable_thetaTerm s hs).comp_injective (fun a b h => by exact_mod_cast h)
  have hsplit := sum_add_tsum_nat_add (f := fun n : ℕ => thetaTerm s (n : ℤ)) 11 hsumN
  have htail : (fun i : ℕ => thetaTerm s ((i + 11 : ℕ) : ℤ)) =
      fun i : ℕ => thetaTerm s ((i : ℤ) + 11) := by
    funext i; congr 1
  rw [htail] at hsplit
  have hhead : ∑ i ∈ Finset.range 11, thetaTerm s (i : ℤ) =
      1 + ∑ n in Finset.Icc (1 : ℕ) 10, (-1 : ℝ) ^ n * Real.exp (-((n : ℝ) * n) * s) := by
    have h0 : thetaTerm s ((0 : ℕ) : ℤ) = 1 := by unfold thetaTerm; norm_num
    have hIco : Finset.Ico (0 + 1 : ℕ) 11 = Finset.Icc 1 10 := by decide
    have hsum2 : ∑ i ∈ Finset.Icc (1 : ℕ) 10, thetaTerm s (i : ℤ) =
        ∑ n ∈ Finset.Icc (1 : ℕ) 10, (-1 : ℝ) ^ n * Real.exp (-((n : ℝ) * n) * s) :=
      Finset.sum_congr rfl (fun n _ => thetaTerm_natCast s n)
    rw [Finset.range_eq_Ico, Finset.sum_eq_sum_Ico_succ_bot (by norm_num : (0 : ℕ) < 11),
      h0, hIco, hsum2]
  rw [hhead] at hsplit
  have hN := tsum_theta_nat_eq s hs
  unfold gTrunc
  linarith

theorem tail_nonpos (s : ℝ) (hs : 0 < s) :
    tsum (fun k : ℕ => thetaTerm s ((k : ℤ) + 11)) ≤ 0 := by
  have hfun : (fun k : ℕ => thetaTerm s ((k : ℤ) + 11)) =
      fun k : ℕ => thetaTerm s ((k + 11 : ℕ) : ℤ) := by
    funext k; congr 1
  rw [hfun]
  have hsumTail : Summable (fun k : ℕ => thetaTerm s ((k + 11 : ℕ) : ℤ)) :=
    (summable_thetaTerm s hs).comp_injective
      (fun x y h => by
        have h' : ((x + 11 : ℕ) : ℤ) = ((y + 11 : ℕ) : ℤ) := h
        omega)
  have hev : Summable ((fun k : ℕ => thetaTerm s ((k + 11 : ℕ) : ℤ)) ∘
      (fun j : ℕ => 2 * j)) :=
    hsumTail.comp_injective (fun x y h => by
      have h' : 2 * x = 2 * y := h
      omega)
  have hod : Summable ((fun k : ℕ => thetaTerm s ((k + 11 : ℕ) : ℤ)) ∘
      (fun j : ℕ => 2 * j + 1)) :=
    hsumTail.comp_injective (fun x y h => by
      have h' : 2 * x + 1 = 2 * y + 1 := h
      omega)
  have heo := tsum_even_add_odd (f := fun k : ℕ => thetaTerm s ((k + 11 : ℕ) : ℤ)) hev hod
  rw [← heo]
  have hevEq : ∀ j : ℕ, thetaTerm s ((2 * j + 11 : ℕ) : ℤ) =
      -Real.exp (-(((2 * j + 11 : ℕ) : ℝ) * ((2 * j + 11 : ℕ) : ℝ)) * s) := by
    intro j
    rw [thetaTerm_natCast, Odd.neg_one_pow ⟨j + 5, by ring⟩]
    ring
  have hodEq : ∀ j : ℕ, thetaTerm s ((2 * j + 1 + 11 : ℕ) : ℤ) =
      Real.exp (-(((2 * j + 1 + 11 : ℕ) : ℝ) * ((2 * j + 1 + 11 : ℕ) : ℝ)) * s) := by
    intro j
    rw [thetaTerm_natCast, Even.neg_one_pow ⟨j + 6, by ring⟩]
    ring
  have hpair : ∀ j : ℕ, thetaTerm s ((2 * j + 1 + 11 : ℕ) : ℤ) ≤
      -(thetaTerm s ((2 * j + 11 : ℕ) : ℤ)) := by
    intro j
    rw [hevEq j, hodEq j, neg_neg]
    apply Real.exp_le_exp.mpr
    push_cast
    nlinarith [Nat.cast_nonneg (α := ℝ) j, hs]
  have hB := tsum_le_tsum hpair hod hev.neg
  rw [tsum_neg] at hB
  linarith

theorem gTrunc_pos (s : ℝ) (hs : 0 < s) : 0 < gTrunc s := by
  rw [gTrunc_eq s hs]
  have h1 := tsum_thetaTerm_pos s hs
  have h2 := tail_nonpos s hs
  linarith

theorem hasDerivAt_q2VaporExact (dif h cv a1 kscg : ℝ) (hh : h ≠ 0) (t : ℝ) :
    HasDerivAt (fun tt => q2VaporExact tt dif h cv a1 kscg 10)
      (a1 * kscg * h * cv * (dif / (h * h)) * gTrunc (Real.pi ^ 2 * t * dif / (h * h))) t := by
  have hπ : Real.pi ≠ 0 := Real.pi_ne_zero
  have hterm : ∀ n ∈ Finset.Icc (1 : ℕ) 10, HasDerivAt
      (fun tt => (-1 : ℝ) ^ n *
        Real.exp (-((n : ℝ) * n) * Real.pi ^ 2 * tt * dif / (h * h)) / ((n : ℝ) * n))
      ((-1 : ℝ) ^ n *
        (Real.exp ((-((n : ℝ) * n) * Real.pi ^ 2 * dif / (h * h)) * t) *
          (-((n : ℝ) * n) * Real.pi ^ 2 * dif / (h * h) * 1)) / ((n : ℝ) * n)) t := by
    intro n _
    have harg : ∀ tt : ℝ, -((n : ℝ) * n) * Real.pi ^ 2 * tt * dif / (h * h) =
        (-((n : ℝ) * n) * Real.pi ^ 2 * dif / (h * h)) * tt := fun tt => by ring
    simp only [harg]
    have h2 := (((hasDerivAt_id t).const_mul
      (-((n : ℝ) * n) * Real.pi ^ 2 * dif / (h * h))).exp.div_const
      ((n : ℝ) * n)).const_mul ((-1 : ℝ) ^ n)
    simp only [id_eq] at h2
    convert h2 using 1
    · funext y; rw [mul_div_assoc]
    · ring
  have hS : HasDerivAt (fun tt => seriesSumExact tt dif h 10)
      (∑ n in Finset.Icc (1 : ℕ) 10, (-1 : ℝ) ^ n *
        (Real.exp ((-((n : ℝ) * n) * Real.pi ^ 2 * dif / (h * h)) * t) *
          (-((n : ℝ) * n) * Real.pi ^ 2 * dif / (h * h) * 1)) / ((n : ℝ) * n)) t := by
    unfold seriesSumExact
    exact HasDerivAt.sum hterm
  have hlin : HasDerivAt (fun tt : ℝ => tt * dif / (h * h)) (1 * dif / (h * h)) t :=
    ((hasDerivAt_id t).mul_const dif).div_const (h * h)
  have hQ := (((hlin.sub (hasDerivAt_const t (1/6 : ℝ))).sub
    (hS.const_mul (2 / Real.pi ^ 2))).const_mul (a1 * kscg * h * cv))
  have hfun : (fun tt => a1 * kscg * h * cv *
      (tt * dif / (h * h) - 1/6 - 2 / Real.pi ^ 2 * seriesSumExact tt dif h 10)) =
      fun tt => q2VaporExact tt dif h cv a1 kscg 10 := by
    funext tt; unfold q2VaporExact; ring
  rw [hfun] at hQ
  convert hQ using 1
  have hsimpl : ∑ n in Finset.Icc (1 : ℕ) 10, (-1 : ℝ) ^ n *
      (Real.exp ((-((n : ℝ) * n) * Real.pi ^ 2 * dif / (h * h)) * t) *
        (-((n : ℝ) * n) * Real.pi ^ 2 * dif / (h * h) * 1)) / ((n : ℝ) * n) =
      (-(Real.pi ^ 2) * dif / (h * h)) *
        ∑ n in Finset.Icc (1 : ℕ) 10,
          (-1 : ℝ) ^ n * Real.exp (-((n : ℝ) * n) * (Real.pi ^ 2 * t * dif / (h * h))) := by
    rw [Finset.mul_sum]
    apply Finset.sum_congr rfl
    intro n hn
    have hn0 : ((n : ℝ) * n) ≠ 0 := by
      have h1 : 1 ≤ n := (Finset.mem_Icc.mp hn).1
      have : (n : ℝ) ≠ 0 := Nat.cast_ne_zero.mpr (by omega)
      exact mul_ne_zero this this
    have hargeq : (-((n : ℝ) * n) * Real.pi ^ 2 * dif / (h * h)) * t =
        -((n : ℝ) * n) * (Real.pi ^ 2 * t * dif / (h * h)) := by ring
    rw [hargeq]
    field_simp
    ring
  rw [hsimpl]
  unfold gTrunc
  have hπ2 : Real.pi ^ 2 ≠ 0 := pow_ne_zero 2 hπ
  field_simp
  ring

/-- C6: for every fixed set of strictly positive coefficients (a1, kscg, h, cv,
dif = Dsc) and truncation order N = 10, the exact truncated dose series
`Q(t) = q2VaporExact t dif h cv a1 kscg 10` is monotonically non-decreasing in
`t` on `t ≥ 0`. Proved via the derivative `Q'(t) = a1*kscg*h*cv*(dif/h²) *
gTrunc(π²*t*dif/h²)` and positivity of `gTrunc` on `(0, ∞)`, which follows from
the Poisson summation identity for the alternating theta series. -/
theorem q2VaporExact_monotone (dif h cv a1 kscg : ℝ)
    (hdif : 0 < dif) (hh : 0 < h) (hcv : 0 < cv) (ha1 : 0 < a1) (hkscg : 0 < kscg) :
    MonotoneOn (fun tt => q2VaporExact tt dif h cv a1 kscg 10) (Set.Ici 0) := by
  apply StrictMonoOn.monotoneOn
  apply strictMonoOn_of_deriv_pos (convex_Ici 0)
  · have hdiff : Differentiable ℝ (fun tt => q2VaporExact tt dif h cv a1 kscg 10) :=
      fun t => (hasDerivAt_q2VaporExact dif h cv a1 kscg (ne_of_gt hh) t).differentiableAt
    exact hdiff.continuous.continuousOn
  · intro t ht
    rw [interior_Ici] at ht
    rw [(hasDerivAt_q2VaporExact dif h cv a1 kscg (ne_of_gt hh) t).deriv]
    have hs : 0 < Real.pi ^ 2 * t * dif / (h * h) :=
      div_pos (mul_pos (mul_pos (pow_pos Real.pi_pos 2) ht) hdif) (mul_pos hh hh)
    exact mul_pos
      (mul_pos (mul_pos (mul_pos (mul_pos ha1 hkscg) hh) hcv)
        (div_pos hdif (mul_pos hh hh)))
      (gTrunc_pos _ hs)

/-- Closed witness for C6 at coefficients all 1 and times 1 ≤ 2. -/
theorem q2VaporExact_monotone_witness :
    q2VaporExact 1 1 1 1 1 1 10 ≤ q2VaporExact 2 1 1 1 1 1 10 :=
  q2VaporExact_monotone 1 1 1 1 1 (by norm_num) (by norm_num) (by norm_num)
    (by norm_num) (by norm_num) (Set.mem_Ici.mpr (by norm_num))
    (Set.mem_Ici.mpr (by norm_num)) (by norm_num)
